import Mathlib

/-!
Verification development for the oxkair bulk JSON-splitting scripts.

The scripts under scrutiny are short Python programs that load a JSON
document and emit one JSON file per coded record:

- `scripts/parsing/parse_big_rvu_file.py` — list-shaped input, one file per
  record keyed by the `HCPCS` field (`normalize_key`, `normalize_value`,
  `main`);
- `scripts/retrieval/split_json_records.py` — flat mapping code → record;
- `scripts/parse_cci_practitioner.py` — flat mapping under `cci_edits`,
  with a per-record try/except around the write;
- `scripts/parsing/parse_icd_tab.py` — nested chapter/section/diagnosis
  tree (`process_diag_entry`, `extract_notes`);
- `scripts/extract_hcpcs_codes.py` — reads per-code files back and strips a
  leading code prefix from descriptions;
- `scripts/parsing/parseLogExecutionTime.py` — sorts extracted trace
  entries by duration (`print_reports`).

Modelling conventions for the shallow embedding:
- JSON values are `JVal`; numbers are modelled by integers (`jnum`), with a
  dedicated constructor `jnan` for the float not-a-number marker that the
  scripts treat specially; none of the claims depends on non-integer,
  non-NaN numerics.
- Python dictionaries are association lists with distinct keys preserved in
  insertion order; `dictInsert` mirrors Python's update-in-place-or-append
  semantics, `dictGet`/`dictHas` mirror `d.get(k)` / `k in d`.
- File writes are modelled as a list of (file name, content) pairs in write
  order; file names are relative to the output directory (the constant
  directory prefix added by `os.path.join` is dropped).
- A write-failure oracle `wfail : String → Bool` says which file names the
  filesystem refuses to write, modelling an `OSError` raised at `open`.
- Runs that can die with an uncaught exception return a `Bool` flag that is
  `false` when the run aborted part way.
-/

/-- JSON values as loaded by Python's `json.load`, with numbers modelled by
integers and a separate marker for the float NaN value. -/
inductive JVal where
  | jnull : JVal
  | jbool : Bool → JVal
  | jnum : Int → JVal
  | jnan : JVal
  | jstr : String → JVal
  | jarr : List JVal → JVal
  | jobj : List (String × JVal) → JVal

/-- `k in d` for a Python dict. -/
def dictHas (d : List (String × JVal)) (k : String) : Bool :=
  d.any (fun p => p.1 == k)

/-- `d.get(k)` for a Python dict, as an option: `none` when the key is
absent. -/
def dictGet (d : List (String × JVal)) (k : String) : Option JVal :=
  (d.find? (fun p => p.1 == k)).map Prod.snd

/-- `d[k]` for a Python dict; only meaningful when `dictHas d k`. -/
def dictIdx (d : List (String × JVal)) (k : String) : JVal :=
  (dictGet d k).getD JVal.jnull

/-- `d.get(k)` for a Python dict with the default `None`: absent keys and
null values are indistinguishable, exactly as for `rec.get("HCPCS") is
None`. -/
def pyGetV (d : List (String × JVal)) (k : String) : JVal :=
  (dictGet d k).getD JVal.jnull

/-- `d[k] = v` for a Python dict: an existing key keeps its position and is
overwritten, a new key is appended at the end.  (Dicts have unique keys, so
replacing the first occurrence is exact.) -/
def dictInsert (d : List (String × JVal)) (k : String) (v : JVal) :
    List (String × JVal) :=
  match d with
  | [] => [(k, v)]
  | p :: rest => if p.1 == k then (k, v) :: rest else p :: dictInsert rest k v

/-- Field lookup inside a JSON object value; `none` on non-objects and
absent fields. -/
def jvalField (v : JVal) (k : String) : Option JVal :=
  match v with
  | JVal.jobj kvs => dictGet kvs k
  | _ => none

/-- Python truthiness of a JSON value (`if code and description:`). -/
def pyTruthy : JVal → Bool
  | JVal.jnull => false
  | JVal.jbool b => b
  | JVal.jnum n => decide (n ≠ 0)
  | JVal.jnan => true
  | JVal.jstr s => decide (s ≠ ("" : String))
  | JVal.jarr xs => !xs.isEmpty
  | JVal.jobj kvs => !kvs.isEmpty

/-- The ASCII apostrophe, used by Python `repr` around strings. -/
def quoteMark : String := String.singleton (Char.ofNat 39)

mutual
/-- Python `repr` of a JSON value (string content is not escaped; no claim
depends on the rendering of nested containers). -/
def pyRepr : JVal → String
  | JVal.jnull => "None"
  | JVal.jbool b => if b then "True" else "False"
  | JVal.jnum n => toString n
  | JVal.jnan => "nan"
  | JVal.jstr s => quoteMark ++ s ++ quoteMark
  | JVal.jarr xs => "[" ++ String.intercalate (", ") (pyReprList xs) ++ "]"
  | JVal.jobj kvs =>
      "\x7b" ++ String.intercalate (", ") (pyReprObj kvs) ++ "\x7d"

/-- `repr` of each element of a JSON array. -/
def pyReprList : List JVal → List String
  | [] => []
  | x :: xs => pyRepr x :: pyReprList xs

/-- `repr` of each key/value pair of a JSON object. -/
def pyReprObj : List (String × JVal) → List String
  | [] => []
  | (k, v) :: rest =>
      (quoteMark ++ k ++ quoteMark ++ (": ") ++ pyRepr v) :: pyReprObj rest
end

/-- Python `str` of a JSON value: strings print bare, everything else as
its `repr`. -/
def pyStr : JVal → String
  | JVal.jstr s => s
  | v => pyRepr v

/-! ## parse_big_rvu_file.py -/

/-- Python `str.strip()` on the character list: leading and trailing
whitespace removed. -/
def pyStripChars (l : List Char) : List Char :=
  ((l.dropWhile Char.isWhitespace).reverse.dropWhile Char.isWhitespace).reverse

/-- Python `str.strip()` (the scripts only ever strip ASCII whitespace). -/
def pyStrip (s : String) : String :=
  String.mk (pyStripChars s.data)

/-- `normalize_key`: replace the en-dash with a hyphen and strip
whitespace (applied to field names).  Single-character `str.replace` is a
character map. -/
def normalize_key (key : String) : String :=
  pyStrip (String.mk (key.data.map (fun c => if c = '–' then '-' else c)))

/-- `normalize_value`: the float NaN becomes `None`, strings are stripped,
every other value passes through unchanged. -/
def normalize_value : JVal → JVal
  | JVal.jnan => JVal.jnull
  | JVal.jstr s => JVal.jstr (pyStrip s)
  | v => v

/-- The `cleaned` dict built by the record loop of `main`: every key/value
pair of the record inserted under its normalized key with its normalized
value, in iteration order. -/
def cleanRecord (rec : List (String × JVal)) : List (String × JVal) :=
  rec.foldl (fun acc kv => dictInsert acc (normalize_key kv.1) (normalize_value kv.2)) []

/-- Python `v is None` for a loaded JSON value. -/
def isNone : JVal → Bool
  | JVal.jnull => true
  | _ => false

/-- Result of a `parse_big_rvu_file.main` run over the loaded list:
files written (name, content) in order, the skip warnings printed, the
processed count, and whether the run completed (an uncaught `OSError` on a
write makes it `false`). -/
structure RvuResult where
  files : List (String × JVal)
  msgs : List String
  count : Nat
  completed : Bool

/-- The record loop of `parse_big_rvu_file.main` over the list of records:
a record whose `HCPCS` lookup yields `None` is skipped with a printed
warning; otherwise the stripped string form of the code names the output
file, the cleaned record (with `HCPCS` overwritten by the code) is written,
and the count is incremented.  A refused write raises out of the loop,
aborting the remaining records. -/
def rvuProcess (wfail : String → Bool) :
    List (List (String × JVal)) → RvuResult
  | [] => ⟨[], [], 0, true⟩
  | rec :: rest =>
    if isNone (pyGetV rec ("HCPCS")) then
      let r := rvuProcess wfail rest
      ⟨r.files,
       ("⚠️ Skipping record without HCPCS: " ++ pyStr (JVal.jobj rec)) :: r.msgs,
       r.count, r.completed⟩
    else
      let code := pyStrip (pyStr (pyGetV rec ("HCPCS")))
      let fname := code ++ (".json")
      if wfail fname then ⟨[], [], 0, false⟩
      else
        let cleaned := dictInsert (cleanRecord rec) ("HCPCS") (JVal.jstr code)
        let r := rvuProcess wfail rest
        ⟨(fname, JVal.jobj cleaned) :: r.files, r.msgs, r.count + 1, r.completed⟩

/-- The write-failure oracle of a healthy filesystem. -/
def noFail : String → Bool := fun _ => false

/-- The concrete record of the spec's example scenario:
`{"HCPCS": " A1–000 ", "Desc": " widget "}` (en-dash inside the HCPCS
value, values padded with whitespace). -/
def c1Record : List (String × JVal) :=
  [(("HCPCS"), JVal.jstr (" A1–000 ")), (("Desc"), JVal.jstr (" widget "))]

/-! ## Dictionary lemmas -/

theorem dictGet_dictInsert_self (d : List (String × JVal)) (k : String) (v : JVal) :
    dictGet (dictInsert d k v) k = some v := by
  induction d with
  | nil => simp [dictInsert, dictGet]
  | cons p rest ih =>
    by_cases h : p.1 = k
    · simp [dictInsert, dictGet, h]
    · simp only [dictInsert, dictGet, List.find?] at *
      simp [h, ih]

theorem dictGet_dictInsert_ne (d : List (String × JVal)) (k1 k : String) (v : JVal)
    (h : k1 ≠ k) : dictGet (dictInsert d k1 v) k = dictGet d k := by
  have hk1k : (k1 == k) = false := beq_eq_false_iff_ne.mpr h
  induction d with
  | nil => simp [dictInsert, dictGet, List.find?, hk1k]
  | cons p rest ih =>
    cases hb : (p.1 == k1) with
    | true =>
      have hp1 : p.1 = k1 := beq_iff_eq.mp hb
      have hbk : (p.1 == k) = false := beq_eq_false_iff_ne.mpr (hp1 ▸ h)
      simp [dictInsert, dictGet, List.find?, hb, hbk, hk1k]
    | false =>
      simp only [dictInsert, hb, Bool.false_eq_true, if_false]
      cases hbk : (p.1 == k) with
      | true => simp [dictGet, List.find?, hbk]
      | false =>
        simp only [dictGet, List.find?, hbk] at ih ⊢
        exact ih

/-- Lookup of a normalized key `nk` after the cleaning fold, when the only
record field whose key normalizes to `nk` carries the NaN value: the fold
stores `None` there and nothing overwrites it. -/
theorem cleanFold_lookup_nan (k : String) :
    ∀ (l acc : List (String × JVal)),
    (∀ p ∈ l, normalize_key p.1 = normalize_key k → p = (k, JVal.jnan)) →
    ((k, JVal.jnan) ∈ l ∨ dictGet acc (normalize_key k) = some JVal.jnull) →
    dictGet
      (l.foldl (fun acc kv => dictInsert acc (normalize_key kv.1) (normalize_value kv.2)) acc)
      (normalize_key k) = some JVal.jnull := by
  intro l
  induction l with
  | nil =>
    intro acc _ hstart
    rcases hstart with h | h
    · cases h
    · simpa using h
  | cons p rest ih =>
    intro acc huniq hstart
    simp only [List.foldl]
    by_cases hp : normalize_key p.1 = normalize_key k
    · have hpk : p = (k, JVal.jnan) := huniq p (List.mem_cons_self p rest) hp
      subst hpk
      refine ih _ (fun q hq => huniq q (List.mem_cons_of_mem _ hq)) (Or.inr ?_)
      rw [hp, dictGet_dictInsert_self]
      rfl
    · rcases hstart with h | h
      · rcases List.mem_cons.mp h with h1 | h1
        · exact absurd (by rw [← h1]) hp
        · exact ih _ (fun q hq => huniq q (List.mem_cons_of_mem _ hq)) (Or.inl h1)
      · refine ih _ (fun q hq => huniq q (List.mem_cons_of_mem _ hq)) (Or.inr ?_)
        rw [dictGet_dictInsert_ne _ _ _ _ hp, h]

/-! ## Claims C1, C6, C7 -/

/-- C1 counterexample: on the input list `[{"HCPCS": " A1–000 ", "Desc": " widget "}]`
the list splitter writes exactly one file and its name is `A1–000.json`
(en-dash preserved), which is not the claimed `A1-000.json`: the code used
for the file name is only stripped, never dash-normalized. -/
theorem c1_endash_counterexample :
    (rvuProcess noFail [c1Record]).files.map Prod.fst = [("A1–000.json")] ∧
    ("A1–000.json" : String) ≠ ("A1-000.json") := by
  exact ⟨rfl, by decide⟩

/-- C1 (amended): the input list `[{"HCPCS": " A1–000 ", "Desc": " widget "}]`
yields exactly one output file, named `A1–000.json` (whitespace trimmed but
the en-dash kept: dash normalization applies only to field names), whose
record is `{"HCPCS": "A1–000", "Desc": "widget"}` with both string values
trimmed. -/
theorem c1_example_scenario :
    rvuProcess noFail [c1Record] =
      ⟨[(("A1–000.json"),
         JVal.jobj [(("HCPCS"), JVal.jstr ("A1–000")), (("Desc"), JVal.jstr ("widget"))])],
       [], 1, true⟩ := by
  rfl

/-- C6: on any list-shaped input, every entry whose `HCPCS` lookup yields
`None` is reported skipped and produces no file; the run completes, one
file is written per counted record, and the processed count plus the number
of skipped entries equals the input length. -/
theorem c6_skip_and_count (data : List (List (String × JVal))) :
    (rvuProcess noFail data).completed = true ∧
    (rvuProcess noFail data).msgs.length =
      data.countP (fun rec => isNone (pyGetV rec ("HCPCS"))) ∧
    (rvuProcess noFail data).files.length = (rvuProcess noFail data).count ∧
    (rvuProcess noFail data).count + (rvuProcess noFail data).msgs.length = data.length := by
  induction data with
  | nil => simp [rvuProcess]
  | cons rec rest ih =>
    obtain ⟨ih1, ih2, ih3, ih4⟩ := ih
    cases h : isNone (pyGetV rec ("HCPCS")) with
    | true =>
      refine ⟨?_, ?_, ?_, ?_⟩ <;>
        simp [rvuProcess, h, noFail, List.countP_cons, ih1, ih2, ih3] <;> omega
    | false =>
      refine ⟨?_, ?_, ?_, ?_⟩ <;>
        simp [rvuProcess, h, noFail, List.countP_cons, ih1, ih2, ih3] <;> omega

/-- C7 counterexample: a record whose `HCPCS` field holds the float NaN is
not skipped; `str(raw_code)` turns the code into the string `"nan"`, and the
final `cleaned["HCPCS"] = code` assignment stores that string, so the NaN
field is emitted as the string `"nan"` — not as null. -/
theorem c7_nan_hcpcs_counterexample :
    rvuProcess noFail [[(("HCPCS"), JVal.jnan)]] =
      ⟨[(("nan.json"), JVal.jobj [(("HCPCS"), JVal.jstr ("nan"))])], [], 1, true⟩ ∧
    JVal.jstr ("nan") ≠ JVal.jnull := by
  refine ⟨rfl, fun h => JVal.noConfusion h⟩

/-- C7 (amended): in any emitted record, a field holding the float NaN is
written as an explicit null — present under its normalized key with value
`None` — provided that field is not the `HCPCS` identifier itself (which is
overwritten by the stripped string form of the code) and no other field of
the record normalizes to the same key. -/
theorem c7_nan_becomes_null (rec : List (String × JVal)) (k : String)
    (hmem : (k, JVal.jnan) ∈ rec)
    (hk : normalize_key k ≠ ("HCPCS"))
    (huniq : ∀ p ∈ rec, normalize_key p.1 = normalize_key k → p = (k, JVal.jnan))
    (hw : isNone (pyGetV rec ("HCPCS")) = false) :
    (rvuProcess noFail [rec]).files.map (fun p => jvalField p.2 (normalize_key k)) =
      [some JVal.jnull] := by
  simp only [rvuProcess, hw, Bool.false_eq_true, if_false, noFail, List.map]
  have h1 : jvalField
      (JVal.jobj (dictInsert (cleanRecord rec) ("HCPCS")
        (JVal.jstr (pyStrip (pyStr (pyGetV rec ("HCPCS")))))))
      (normalize_key k) = some JVal.jnull := by
    show dictGet _ (normalize_key k) = some JVal.jnull
    rw [dictGet_dictInsert_ne _ _ _ _ (fun h => hk h.symm)]
    exact cleanFold_lookup_nan k rec [] huniq (Or.inl hmem)
  simp [h1]

/-- C7 witness: a concrete record with an extra NaN field `Work RVU`
alongside a valid `HCPCS` code ends up with that field present and null in
the single emitted file. -/
theorem c7_nan_becomes_null_witness :
    (rvuProcess noFail [[(("HCPCS"), JVal.jstr ("A1")), (("Work RVU"), JVal.jnan)]]).files.map
      (fun p => jvalField p.2 (normalize_key ("Work RVU"))) = [some JVal.jnull] :=
  c7_nan_becomes_null [(("HCPCS"), JVal.jstr ("A1")), (("Work RVU"), JVal.jnan)]
    ("Work RVU")
    (by simp)
    (by decide)
    (by intro p hp hnk
        rcases List.mem_cons.mp hp with h1 | h1
        · exact absurd (h1 ▸ hnk) (by decide)
        · simpa using h1)
    (by rfl)

/-! ## split_json_records.py and parse_cci_practitioner.py -/

/-- `split_json_records.main`: write one file per (code, record) pair of
the flat mapping, named `<code>.json`, containing exactly that record.
(The loop has no failure handling; this is the completed run.) -/
def split_json_records (data : List (String × JVal)) : List (String × JVal) :=
  data.map (fun p => (p.1 ++ (".json"), p.2))

/-- The per-code loop of `parse_cci_practitioner`: each write is wrapped in
try/except IOError, a refused write prints a warning naming the path and
the loop continues with the next code.  Returns (files written, warnings
printed). -/
def cciProcess (wfail : String → Bool) :
    List (String × JVal) → List (String × JVal) × List String
  | [] => ([], [])
  | (code, details) :: rest =>
    let filename := code ++ (".json")
    let r := cciProcess wfail rest
    if wfail filename then
      (r.1, ("Warning: Could not write " ++ filename) :: r.2)
    else
      ((filename, details) :: r.1, r.2)

/-! ## Claims C3 and C5 -/

/-- C3 counterexample: a run of the list splitter (`parse_big_rvu_file`)
on two valid records where the filesystem refuses the first record's file:
the loop has no try/except, the `OSError` aborts the traversal, and the
second record is never written — no output at all is produced. -/
theorem c3_rvu_abort_counterexample :
    rvuProcess (fun p => p == ("A.json"))
      [[(("HCPCS"), JVal.jstr ("A"))], [(("HCPCS"), JVal.jstr ("B"))]] =
      ⟨[], [], 0, false⟩ := by
  rfl

/-- C3 (amended): only the CCI splitter treats write failures per-record —
each code whose write is refused gets a warning naming its path and every
other code is still written, regardless of position; the list splitter
(`parse_big_rvu_file`) instead aborts at the first refused write, leaving
every later record unprocessed. -/
theorem c3_write_failure_handling (wfail : String → Bool)
    (edits : List (String × JVal)) (code : String) (details : JVal)
    (hmem : (code, details) ∈ edits) :
    ((wfail (code ++ (".json")) = false →
        (code ++ (".json"), details) ∈ (cciProcess wfail edits).1) ∧
     (wfail (code ++ (".json")) = true →
        ("Warning: Could not write " ++ (code ++ (".json"))) ∈ (cciProcess wfail edits).2)) ∧
    (∀ (rec : List (String × JVal)) (rest : List (List (String × JVal))),
      isNone (pyGetV rec ("HCPCS")) = false →
      wfail (pyStrip (pyStr (pyGetV rec ("HCPCS"))) ++ (".json")) = true →
      rvuProcess wfail (rec :: rest) = ⟨[], [], 0, false⟩) := by
  constructor
  · induction edits with
    | nil => cases hmem
    | cons p rest ih =>
      rcases List.mem_cons.mp hmem with h1 | h1
      · subst h1
        constructor
        · intro hw
          simp [cciProcess, hw]
        · intro hw
          simp [cciProcess, hw]
      · have := ih h1
        constructor
        · intro hw
          rcases p with ⟨c, d⟩
          cases hpw : wfail (c ++ (".json")) with
          | true => simpa [cciProcess, hpw] using this.1 hw
          | false => simpa [cciProcess, hpw] using Or.inr (this.1 hw)
        · intro hw
          rcases p with ⟨c, d⟩
          cases hpw : wfail (c ++ (".json")) with
          | true => simpa [cciProcess, hpw] using Or.inr (this.2 hw)
          | false => simpa [cciProcess, hpw] using this.2 hw
  · intro rec rest hrec hw
    simp [rvuProcess, hrec, hw]

/-- C3 witness: with a filesystem refusing exactly `B.json`, the CCI
splitter still writes `A.json` and `C.json` and warns about `B.json`,
while the list splitter given a first record coding to `B` aborts with no
output. -/
theorem c3_write_failure_handling_witness :
    ((("A.json" : String), JVal.jstr ("x")) ∈
       (cciProcess (fun p => p == ("B.json"))
         [(("A"), JVal.jstr ("x")), (("B"), JVal.jstr ("y")), (("C"), JVal.jstr ("z"))]).1) ∧
    (("Warning: Could not write B.json" : String) ∈
       (cciProcess (fun p => p == ("B.json"))
         [(("A"), JVal.jstr ("x")), (("B"), JVal.jstr ("y")), (("C"), JVal.jstr ("z"))]).2) ∧
    rvuProcess (fun p => p == ("B.json")) [[(("HCPCS"), JVal.jstr ("B"))]] = ⟨[], [], 0, false⟩ := by
  refine ⟨?_, ?_, ?_⟩
  · exact (c3_write_failure_handling (fun p => p == ("B.json"))
      [(("A"), JVal.jstr ("x")), (("B"), JVal.jstr ("y")), (("C"), JVal.jstr ("z"))]
      ("A") (JVal.jstr ("x")) (List.mem_cons_self _ _)).1.1 (by rfl)
  · exact (c3_write_failure_handling (fun p => p == ("B.json"))
      [(("A"), JVal.jstr ("x")), (("B"), JVal.jstr ("y")), (("C"), JVal.jstr ("z"))]
      ("B") (JVal.jstr ("y")) (List.mem_cons_of_mem _ (List.mem_cons_self _ _))).1.2 (by rfl)
  · exact (c3_write_failure_handling (fun p => p == ("B.json"))
      [(("A"), JVal.jstr ("x"))] ("A") (JVal.jstr ("x")) (List.mem_cons_self _ _)).2
      [(("HCPCS"), JVal.jstr ("B"))] [] (by rfl) (by rfl)

theorem append_json_injective :
    Function.Injective (fun c : String => c ++ (".json")) := by
  intro a b h
  have hd : a.data ++ (".json" : String).data = b.data ++ (".json" : String).data := by
    simpa [String.data_append] using congrArg String.data h
  exact String.ext (List.append_cancel_right hd)

theorem filter_split_eq_nil (c : String) (rest : List (String × JVal))
    (h : ∀ p ∈ rest, p.1 ≠ c) :
    (split_json_records rest).filter (fun q => q.1 == c ++ (".json")) = [] := by
  induction rest with
  | nil => rfl
  | cons p tail ih =>
    have hp : p.1 ≠ c := h p (List.mem_cons_self p tail)
    have hname : (p.1 ++ (".json") == c ++ (".json")) = false := by
      refine beq_eq_false_iff_ne.mpr (fun hcontra => hp ?_)
      exact append_json_injective hcontra
    simp only [split_json_records, List.map, List.filter, hname]
    exact ih (fun q hq => h q (List.mem_cons_of_mem _ hq))

/-- C5: on a flat mapping with pairwise distinct codes, the splitter
produces exactly one file per input pair, the file names are exactly the
input codes suffixed with `.json`, and for every input pair the unique
output file carrying that code's name contains exactly that code's
record. -/
theorem c5_flat_mapping_split (data : List (String × JVal))
    (hnodup : (data.map Prod.fst).Nodup) :
    (split_json_records data).length = data.length ∧
    (split_json_records data).map Prod.fst =
      (data.map Prod.fst).map (fun c => c ++ (".json")) ∧
    ∀ c r, (c, r) ∈ data →
      (split_json_records data).filter (fun q => q.1 == c ++ (".json")) =
        [(c ++ (".json"), r)] := by
  refine ⟨by simp [split_json_records], by simp [split_json_records, List.map_map], ?_⟩
  induction data with
  | nil => intro c r hmem; cases hmem
  | cons p tail ih =>
    intro c r hmem
    rcases List.mem_cons.mp hmem with h1 | h1
    · have hp : p = (c, r) := h1.symm
      subst hp
      have htail : ∀ q ∈ tail, q.1 ≠ c := by
        intro q hq hqc
        have : c ∈ tail.map Prod.fst := hqc ▸ List.mem_map_of_mem Prod.fst hq
        exact (List.nodup_cons.mp hnodup).1 this
      simp only [split_json_records, List.map, List.filter, beq_self_eq_true]
      have := filter_split_eq_nil c tail htail
      simp only [split_json_records] at this
      rw [this]
    · have hnodup' : (tail.map Prod.fst).Nodup := (List.nodup_cons.mp hnodup).2
      have hpc : p.1 ≠ c := by
        intro hcontra
        have : c ∈ tail.map Prod.fst := List.mem_map_of_mem Prod.fst h1
        exact (List.nodup_cons.mp hnodup).1 (hcontra ▸ this)
      have hname : (p.1 ++ (".json") == c ++ (".json")) = false :=
        beq_eq_false_iff_ne.mpr (fun hcontra => hpc (append_json_injective hcontra))
      simp only [split_json_records, List.map, List.filter, hname]
      have := ih hnodup' c r h1
      simpa [split_json_records] using this

/-- C5 witness: a two-code flat mapping yields two files and the file named
`A.json` contains exactly code `A`'s record. -/
theorem c5_flat_mapping_split_witness :
    (split_json_records [(("A"), JVal.jnum 1), (("B"), JVal.jnum 2)]).length = 2 ∧
    (split_json_records [(("A"), JVal.jnum 1), (("B"), JVal.jnum 2)]).filter
        (fun q => q.1 == ("A") ++ (".json")) = [(("A") ++ (".json"), JVal.jnum 1)] := by
  have h := c5_flat_mapping_split [(("A"), JVal.jnum 1), (("B"), JVal.jnum 2)] (by decide)
  exact ⟨h.1, h.2.2 ("A") (JVal.jnum 1) (List.mem_cons_self _ _)⟩

/-! ## Output-directory model and claim C9 -/

/-- A directory state: file name → file contents (the serialized record).
Writing with `open(path, "w")` overwrites whatever was there. -/
def updateFile (d : String → Option JVal) (n : String) (c : JVal) :
    String → Option JVal :=
  fun q => if q = n then some c else d q

/-- Apply a splitter run's writes, in order, to a directory state. -/
def applyWrites (d : String → Option JVal) (ws : List (String × JVal)) :
    String → Option JVal :=
  ws.foldl (fun acc p => updateFile acc p.1 p.2) d

theorem applyWrites_lookup (ws : List (String × JVal)) :
    ∀ (d : String → Option JVal) (q : String),
    applyWrites d ws q =
      match ws.reverse.find? (fun p => p.1 == q) with
      | some p => some p.2
      | none => d q := by
  induction ws with
  | nil => intro d q; rfl
  | cons w tail ih =>
    intro d q
    have hstep : applyWrites d (w :: tail) q = applyWrites (updateFile d w.1 w.2) tail q := rfl
    rw [hstep, ih]
    simp only [List.reverse_cons, List.find?_append]
    cases h : tail.reverse.find? (fun p => p.1 == q) with
    | some p => simp [Option.or]
    | none =>
      cases hq : (w.1 == q) with
      | true =>
        have : q = w.1 := (beq_iff_eq.mp hq).symm
        simp [Option.or, List.find?, hq, updateFile, this]
      | false =>
        have : ¬q = w.1 := fun hc => (beq_eq_false_iff_ne.mp hq) hc.symm
        simp [Option.or, List.find?, hq, updateFile, this]

theorem applyWrites_idem (ws : List (String × JVal)) (d : String → Option JVal) :
    applyWrites (applyWrites d ws) ws = applyWrites d ws := by
  funext q
  rw [applyWrites_lookup, applyWrites_lookup]
  cases h : ws.reverse.find? (fun p => p.1 == q) with
  | some p => rfl
  | none => rfl

/-- C9: re-running a splitter on the same unchanged input over the same
output directory is idempotent — the splitter's write list is a pure
function of the input, and applying the same writes a second time leaves
every file name mapped to exactly the contents it had after the first run
(no new files, no changed bytes). Stated for the flat-mapping splitter and
for a completed list-splitter run. -/
theorem c9_rerun_idempotent (d : String → Option JVal)
    (mapping : List (String × JVal)) (data : List (List (String × JVal))) :
    applyWrites (applyWrites d (split_json_records mapping)) (split_json_records mapping) =
      applyWrites d (split_json_records mapping) ∧
    applyWrites (applyWrites d (rvuProcess noFail data).files) (rvuProcess noFail data).files =
      applyWrites d (rvuProcess noFail data).files :=
  ⟨applyWrites_idem _ _, applyWrites_idem _ _⟩

/-! ## parseLogExecutionTime.py and claim C10 -/

/-- One entry produced by `parse_traces`: timestamp rendering, component,
step id, and the `executionTime` duration in milliseconds. -/
structure TraceEntry where
  timestamp : String
  component : String
  stepId : String
  duration : Int

/-- Stable insertion used to model Python `sorted(entries, key=duration,
reverse=False)`: an ascending, stable sort by the duration key. -/
def insertByDuration (e : TraceEntry) : List TraceEntry → List TraceEntry
  | [] => [e]
  | x :: xs =>
    if e.duration ≤ x.duration then e :: x :: xs else x :: insertByDuration e xs

/-- `by_dur = sorted(entries, key=lambda x: duration, reverse=False)`. -/
def sortByDuration (entries : List TraceEntry) : List TraceEntry :=
  entries.foldr insertByDuration []

/-- The lines printed under the heading `Top longest executions`, in print
order. -/
def topLongestReport (entries : List TraceEntry) : List String :=
  (sortByDuration entries).map
    (fun e => toString e.duration ++ ("ms - ") ++ e.component ++ (" - (") ++ e.stepId ++ (")"))

theorem chain_insertByDuration (e : TraceEntry) (l : List TraceEntry)
    (h : List.Chain' (fun a b => a.duration ≤ b.duration) l) :
    List.Chain' (fun a b => a.duration ≤ b.duration) (insertByDuration e l) := by
  induction l with
  | nil => simp [insertByDuration]
  | cons x xs ih =>
    by_cases hle : e.duration ≤ x.duration
    · simp only [insertByDuration, if_pos hle]
      exact List.chain'_cons.mpr ⟨hle, h⟩
    · simp only [insertByDuration, if_neg hle]
      have hxe : x.duration ≤ e.duration := le_of_not_le hle
      have htail := ih h.tail
      cases xs with
      | nil => simpa [insertByDuration] using hxe
      | cons y ys =>
        have hxy : x.duration ≤ y.duration := (List.chain'_cons.mp h).1
        by_cases hey : e.duration ≤ y.duration
        · simp only [insertByDuration, if_pos hey] at htail ⊢
          exact List.chain'_cons.mpr ⟨hxe, htail⟩
        · simp only [insertByDuration, if_neg hey] at htail ⊢
          exact List.chain'_cons.mpr ⟨hxy, htail⟩

theorem chain_sortByDuration (entries : List TraceEntry) :
    List.Chain' (fun a b => a.duration ≤ b.duration) (sortByDuration entries) := by
  induction entries with
  | nil => simp [sortByDuration]
  | cons e rest ih => exact chain_insertByDuration e _ ih

/-- C10: for a non-empty list of extracted trace entries, the list printed
under `Top longest executions` (the `reverse=False` sort by duration) is in
ascending duration order: each entry's duration is at most the next
one's. -/
theorem c10_top_longest_ascending (entries : List TraceEntry) (h : entries ≠ []) :
    List.Chain' (fun a b => a.duration ≤ b.duration) (sortByDuration entries) ∧
    topLongestReport entries =
      (sortByDuration entries).map
        (fun e => toString e.duration ++ ("ms - ") ++ e.component ++ (" - (") ++ e.stepId ++ (")")) :=
  ⟨chain_sortByDuration entries, rfl⟩

/-- C10 witness: a concrete three-entry trace list is printed shortest
first. -/
theorem c10_top_longest_ascending_witness :
    List.Chain' (fun a b => a.duration ≤ b.duration)
      (sortByDuration
        [⟨("t1"), ("A"), ("s1"), 500⟩, ⟨("t2"), ("B"), ("s2"), 120⟩, ⟨("t3"), ("C"), ("s3"), 980⟩]) :=
  (c10_top_longest_ascending
    [⟨("t1"), ("A"), ("s1"), 500⟩, ⟨("t2"), ("B"), ("s2"), 120⟩, ⟨("t3"), ("C"), ("s3"), 980⟩]
    (List.cons_ne_nil _ _)).1

/-! ## extract_hcpcs_codes.py and claim C8 -/

/-- Python `s.startswith(pre)`: character-level prefix test. -/
def pyStartswith (s pre : String) : Bool :=
  pre.data.isPrefixOf s.data

/-- Python `s[n:]`: drop the first `n` characters. -/
def pySliceFrom (s : String) (n : Nat) : String :=
  String.mk (s.data.drop n)

/-- The description cleanup of `extract_hcpcs_codes`: when the description
begins with the record's own code followed by a space, that prefix is
removed (`description[len(code) + 1:]`) and the remainder stripped;
otherwise the description is untouched. -/
def stripLeadingCode (code description : String) : String :=
  if pyStartswith description (code ++ (" ")) then
    pyStrip (pySliceFrom description (code.length + 1))
  else description

/-- The `"{code}: {description}"` line accumulated for a qualifying
per-code file. -/
def hcpcsLine (code description : String) : String :=
  code ++ (": ") ++ stripLeadingCode code description

/-- C8: a description of the form `code ++ " " ++ rest` has the code prefix
and separator removed (leaving the stripped remainder), and a description
that does not begin with its record's code at all is left unmodified. -/
theorem c8_description_cleanup (code desc rest : String) :
    stripLeadingCode code ((code ++ (" ")) ++ rest) = pyStrip rest ∧
    (pyStartswith desc code = false → stripLeadingCode code desc = desc) := by
  constructor
  · have hpre : pyStartswith ((code ++ (" ")) ++ rest) (code ++ (" ")) = true := by
      unfold pyStartswith
      refine List.isPrefixOf_iff_prefix.mpr ?_
      rw [String.data_append]
      exact List.prefix_append _ _
    have hlen : (code ++ (" ")).data.length = code.length + 1 := by
      rw [String.data_append, List.length_append]
      rfl
    simp only [stripLeadingCode, hpre, if_true]
    congr 1
    show String.mk (((code ++ (" ")) ++ rest).data.drop (code.length + 1)) = rest
    rw [String.data_append, List.drop_left' hlen]
  · intro hnot
    cases hsw : pyStartswith desc (code ++ (" ")) with
    | false => simp [stripLeadingCode, hsw]
    | true =>
      exfalso
      have h1 : (code ++ (" ")).data <+: desc.data := by
        have := hsw
        unfold pyStartswith at this
        exact List.isPrefixOf_iff_prefix.mp this
      have h2 : code.data <+: (code ++ (" ")).data := by
        rw [String.data_append]
        exact List.prefix_append _ _
      have h3 : pyStartswith desc code = true := by
        unfold pyStartswith
        exact List.isPrefixOf_iff_prefix.mpr (h2.trans h1)
      rw [hnot] at h3
      cases h3

/-- C8 witness: `A1 B widget` with code `A1` loses the redundant prefix;
`C thing` does not begin with `A1` and is unchanged. -/
theorem c8_description_cleanup_witness :
    stripLeadingCode ("A1") ((("A1") ++ (" ")) ++ ("B widget")) = pyStrip ("B widget") ∧
    stripLeadingCode ("A1") ("C thing") = ("C thing") :=
  ⟨(c8_description_cleanup ("A1") ("C thing") ("B widget")).1,
   (c8_description_cleanup ("A1") ("C thing") ("B widget")).2 (by decide)⟩

/-! ## parse_icd_tab.py -/

/-- `extract_notes`: pull note strings out of an object-with-`note`.  A
note list keeps each dict item's raw `note` value (`item.get("note", "")`)
and stringifies non-dict items; a nested object-with-`note` or any other
note content is stringified whole; anything else contributes nothing. -/
def extract_notes (note_obj : JVal) : List JVal :=
  match note_obj with
  | JVal.jobj kvs =>
    if dictHas kvs ("note") then
      match dictIdx kvs ("note") with
      | JVal.jarr items =>
          items.map (fun item =>
            match item with
            | JVal.jobj ikvs =>
                if dictHas ikvs ("note") then dictIdx ikvs ("note") else JVal.jstr ("")
            | _ => JVal.jstr (pyStr item))
      | JVal.jobj nkvs =>
          if dictHas nkvs ("note") then [JVal.jstr (pyStr (dictIdx nkvs ("note")))]
          else [JVal.jstr (pyStr (JVal.jobj nkvs))]
      | other => [JVal.jstr (pyStr other)]
    else []
  | _ => []

/-- The `inclusionTerm` collection: a dict with a `note` key contributes
its note (spliced if a list), a list contributes each dict item's note, a
bare string contributes itself, anything else nothing. -/
def inclusionTermsOf (entry : List (String × JVal)) : List JVal :=
  if dictHas entry ("inclusionTerm") then
    match dictIdx entry ("inclusionTerm") with
    | JVal.jobj kvs =>
        if dictHas kvs ("note") then
          match dictIdx kvs ("note") with
          | JVal.jarr xs => xs
          | v => [v]
        else []
    | JVal.jarr items =>
        items.foldl (fun acc item =>
          match item with
          | JVal.jobj ikvs =>
              if dictHas ikvs ("note") then
                match dictIdx ikvs ("note") with
                | JVal.jarr xs => acc ++ xs
                | v => acc ++ [v]
              else acc
          | _ => acc) []
    | JVal.jstr s => [JVal.jstr s]
    | _ => []
  else []

/-- The `excludes1` terms; `none` when the entry has no usable `excludes1`
(the record then stores null). -/
def excludes1Of (entry : List (String × JVal)) : Option (List JVal) :=
  if dictHas entry ("excludes1") then
    match dictIdx entry ("excludes1") with
    | JVal.jobj kvs =>
        if dictHas kvs ("note") then
          match dictIdx kvs ("note") with
          | JVal.jarr xs => some xs
          | v => some [v]
        else none
    | JVal.jarr xs => some xs
    | JVal.jstr s => some [JVal.jstr s]
    | _ => none
  else none

/-- The general notes list gathered from the four optional note-bearing
fields. -/
def notesValuesOf (entry : List (String × JVal)) : List JVal :=
  (if dictHas entry ("notes") then extract_notes (dictIdx entry ("notes")) else []) ++
  (if dictHas entry ("useAdditionalCode") then extract_notes (dictIdx entry ("useAdditionalCode")) else []) ++
  (if dictHas entry ("codeAlso") then extract_notes (dictIdx entry ("codeAlso")) else []) ++
  (if dictHas entry ("sevenChrDef") then extract_notes (dictIdx entry ("sevenChrDef")) else [])

/-- A value acceptable to `"\n".join`. -/
def asStr : JVal → Option String
  | JVal.jstr s => some s
  | _ => none

/-- `"\n".join(notes_list) if notes_list else None`: `none` models the
`TypeError` that `join` raises on a non-string item (which aborts the
run); `some` carries the record's `notes` value. -/
def notesStrOf (entry : List (String × JVal)) : Option JVal :=
  match notesValuesOf entry with
  | [] => some JVal.jnull
  | nl =>
    match nl.mapM asStr with
    | some ss => some (JVal.jstr (String.intercalate ("\n") ss))
    | none => none

/-- The per-code record written for a recognized entry: code, description,
the chapter and block context passed down the recursion, and the flattened
note structures. -/
def icdRecord (entry : List (String × JVal)) (ch bl notes : JVal) : JVal :=
  JVal.jobj
    [(("code"), pyGetV entry ("name")),
     (("description"), pyGetV entry ("desc")),
     (("chapter"), ch),
     (("block"), bl),
     (("inclusionTerms"),
        if (inclusionTermsOf entry).isEmpty then JVal.jnull
        else JVal.jarr (inclusionTermsOf entry)),
     (("excludes1"),
        match excludes1Of entry with
        | some xs => JVal.jarr xs
        | none => JVal.jnull),
     (("notes"), notes)]


/-- The dict sub-entries iterated by `for sub_entry in entry["diag"]`.  A
`dict` or `str` value under `diag` iterates to bare strings, each
immediately rejected by the `isinstance(entry, dict)` guard of the
recursive call, so it contributes no children; a non-iterable value (see
`diagRaises`) contributes none either because the loop raises before any
recursive call. -/
def diagSubs (entry : List (String × JVal)) : List JVal :=
  if dictHas entry ("diag") then
    match dictIdx entry ("diag") with
    | JVal.jarr xs => xs
    | _ => []
  else []

/-- Whether `for sub_entry in entry["diag"]` raises `TypeError`: the key is
present but its value is not iterable (not a list, dict or string). -/
def diagRaises (entry : List (String × JVal)) : Bool :=
  if dictHas entry ("diag") then
    match dictIdx entry ("diag") with
    | JVal.jarr _ => false
    | JVal.jobj _ => false
    | JVal.jstr _ => false
    | _ => true
  else false

theorem sizeOf_pos_jlist (l : List JVal) : 0 < sizeOf l := by
  cases l <;> simp

theorem sizeOf_pos_kvlist (l : List (String × JVal)) : 0 < sizeOf l := by
  cases l <;> simp

theorem sizeOf_diagSubs_lt (kvs : List (String × JVal)) :
    sizeOf (diagSubs kvs) < sizeOf (JVal.jobj kvs) := by
  have hpos : 0 < sizeOf kvs := sizeOf_pos_kvlist kvs
  unfold diagSubs
  by_cases hhas : dictHas kvs ("diag") = true
  · rw [if_pos hhas]
    cases hv : dictIdx kvs ("diag") with
    | jarr xs =>
      have hfind : dictGet kvs ("diag") = some (JVal.jarr xs) := by
        unfold dictIdx at hv
        cases hg : dictGet kvs ("diag") with
        | none => rw [hg] at hv; cases hv
        | some v => rw [hg] at hv; simp only [Option.getD] at hv; rw [hv]
      obtain ⟨p, hp, hp2⟩ :
          ∃ p, List.find? (fun q => q.1 == ("diag")) kvs = some p ∧ p.2 = JVal.jarr xs := by
        unfold dictGet at hfind
        cases hf : List.find? (fun q => q.1 == ("diag")) kvs with
        | none => rw [hf] at hfind; cases hfind
        | some p =>
          rw [hf] at hfind
          simp only [Option.map] at hfind
          injection hfind with h2
          exact ⟨p, rfl, h2⟩
      have hmem : p ∈ kvs := List.mem_of_find?_eq_some hp
      have hlt : sizeOf p < sizeOf kvs := List.sizeOf_lt_of_mem hmem
      rcases p with ⟨k, v⟩
      simp only at hp2
      subst hp2
      simp only [Prod.mk.sizeOf_spec, JVal.jarr.sizeOf_spec, JVal.jobj.sizeOf_spec] at *
      omega
    | jobj o => simp only [List.nil.sizeOf_spec, JVal.jobj.sizeOf_spec]; omega
    | jstr s => simp only [List.nil.sizeOf_spec, JVal.jobj.sizeOf_spec]; omega
    | jnull => simp only [List.nil.sizeOf_spec, JVal.jobj.sizeOf_spec]; omega
    | jbool b => simp only [List.nil.sizeOf_spec, JVal.jobj.sizeOf_spec]; omega
    | jnum n => simp only [List.nil.sizeOf_spec, JVal.jobj.sizeOf_spec]; omega
    | jnan => simp only [List.nil.sizeOf_spec, JVal.jobj.sizeOf_spec]; omega
  · rw [if_neg hhas]
    simp only [List.nil.sizeOf_spec, JVal.jobj.sizeOf_spec]
    omega

mutual
/-- `process_diag_entry` as the (files, `Created` messages) it emits, in
order, plus a flag that is `false` when the call raised (a `TypeError`
from a non-string notes item, or from a non-iterable `diag` value) —
aborting the whole run; files already written stand even then.  A
non-dict entry returns immediately; a dict with truthy `name` and `desc`
writes its own record first; children under `diag` are visited whether or
not the entry itself qualified. -/
def processDiagEntry (entry ch bl : JVal) :
    (List (String × JVal) × List String) × Bool :=
  match entry with
  | JVal.jobj kvs =>
    let own : (List (String × JVal) × List String) × Bool :=
      if pyTruthy (pyGetV kvs ("name")) && pyTruthy (pyGetV kvs ("desc")) then
        match notesStrOf kvs with
        | none => (([], []), false)
        | some notes =>
          let fname := pyStr (pyGetV kvs ("name")) ++ (".json")
          (([(fname, icdRecord kvs ch bl notes)], [("Created ") ++ fname]), true)
      else (([], []), true)
    if own.2 then
      if diagRaises kvs then (own.1, false)
      else
        let rest := processDiagList (diagSubs kvs) ch bl
        ((own.1.1 ++ rest.1.1, own.1.2 ++ rest.1.2), rest.2)
    else own
  | _ => (([], []), true)
termination_by sizeOf entry
decreasing_by
  · exact sizeOf_diagSubs_lt kvs

/-- The `for sub_entry in entry["diag"]` loop: children in order, stopping
at the first child whose processing raised. -/
def processDiagList (subs : List JVal) (ch bl : JVal) :
    (List (String × JVal) × List String) × Bool :=
  match subs with
  | [] => (([], []), true)
  | x :: rest =>
    let hd := processDiagEntry x ch bl
    if hd.2 then
      let tl := processDiagList rest ch bl
      ((hd.1.1 ++ tl.1.1, hd.1.2 ++ tl.1.2), tl.2)
    else (hd.1, false)
termination_by sizeOf subs
decreasing_by
  · simp only [List.cons.sizeOf_spec]; omega
  · simp only [List.cons.sizeOf_spec]; omega
end

mutual
/-- Every strict descendant entry reachable through `diag` child lists. -/
def descendantsOf (e : JVal) : List JVal :=
  match e with
  | JVal.jobj kvs => descendantsList (diagSubs kvs)
  | _ => []
termination_by sizeOf e
decreasing_by
  · exact sizeOf_diagSubs_lt kvs

/-- The descendants contributed by a child list: each child and, in turn,
its own descendants. -/
def descendantsList (subs : List JVal) : List JVal :=
  match subs with
  | [] => []
  | x :: rest => x :: (descendantsOf x ++ descendantsList rest)
termination_by sizeOf subs
decreasing_by
  · simp only [List.cons.sizeOf_spec]; omega
  · simp only [List.cons.sizeOf_spec]; omega
end

/-- An entry recognized as a record: a dict whose `name` and `desc` lookups
are both truthy. -/
def recognizedEntry : JVal → Bool
  | JVal.jobj kvs => pyTruthy (pyGetV kvs ("name")) && pyTruthy (pyGetV kvs ("desc"))
  | _ => false

/-- The output file name a recognized entry's record is written to (only
meaningful on dict entries). -/
def icdFileName : JVal → String
  | JVal.jobj kvs => pyStr (pyGetV kvs ("name")) ++ (".json")
  | _ => ("")

/-! ## Claim C2 -/

/-- C2 counterexample: the nested-tree splitter, given the entry
`{"name": "A00"}` (no `desc`), writes nothing — and prints nothing: the
skip is silent, with no report to the operator, unlike the list splitter's
warning. -/
theorem c2_icd_silent_skip_counterexample :
    processDiagEntry (JVal.jobj [(("name"), JVal.jstr ("A00"))])
      (JVal.jstr ("C")) (JVal.jstr ("B")) = (([], []), true) := by
  rw [processDiagEntry]
  simp [dictHas, pyGetV, dictGet, List.find?, pyTruthy, diagSubs, diagRaises, dictIdx,
        processDiagList]

/-- C2 (amended): a record missing a required field is skipped and not
written by both splitters, but only the list splitter reports it: an
unrecognized tree entry contributes no file and no printed message (only
its children's output appears), while the list splitter prepends a printed
warning for every record whose `HCPCS` lookup is `None` and writes no file
for it. -/
theorem c2_skip_reporting (kvs : List (String × JVal)) (ch bl : JVal)
    (wfail : String → Bool) (rec : List (String × JVal))
    (rest : List (List (String × JVal)))
    (hskip : recognizedEntry (JVal.jobj kvs) = false)
    (hiter : diagRaises kvs = false)
    (hmiss : isNone (pyGetV rec ("HCPCS")) = true) :
    processDiagEntry (JVal.jobj kvs) ch bl = processDiagList (diagSubs kvs) ch bl ∧
    (rvuProcess wfail (rec :: rest)).msgs =
      ("⚠️ Skipping record without HCPCS: " ++ pyStr (JVal.jobj rec)) ::
        (rvuProcess wfail rest).msgs ∧
    (rvuProcess wfail (rec :: rest)).files = (rvuProcess wfail rest).files := by
  refine ⟨?_, ?_, ?_⟩
  · rw [processDiagEntry]
    have hskip' :
        (pyTruthy (pyGetV kvs ("name")) && pyTruthy (pyGetV kvs ("desc"))) = false := by
      simpa [recognizedEntry] using hskip
    simp [hskip', hiter]
  · simp [rvuProcess, hmiss]
  · simp [rvuProcess, hmiss]

/-- C2 witness: the concrete desc-less entry is skipped with no message,
and a concrete `HCPCS`-less record gets exactly the printed warning. -/
theorem c2_skip_reporting_witness :
    processDiagEntry (JVal.jobj [(("name"), JVal.jstr ("A01"))])
        (JVal.jstr ("C")) (JVal.jstr ("B")) =
      processDiagList (diagSubs [(("name"), JVal.jstr ("A01"))])
        (JVal.jstr ("C")) (JVal.jstr ("B")) ∧
    (rvuProcess noFail [[(("Desc"), JVal.jstr ("w"))]]).msgs =
      ("⚠️ Skipping record without HCPCS: " ++ pyStr (JVal.jobj [(("Desc"), JVal.jstr ("w"))])) ::
        (rvuProcess noFail []).msgs ∧
    (rvuProcess noFail [[(("Desc"), JVal.jstr ("w"))]]).files = (rvuProcess noFail []).files := by
  exact c2_skip_reporting [(("name"), JVal.jstr ("A01"))] (JVal.jstr ("C")) (JVal.jstr ("B"))
    noFail [(("Desc"), JVal.jstr ("w"))] [] (by decide) (by decide) (by decide)

/-! ## Claim C4 -/

theorem jvalField_icdRecord (entry : List (String × JVal)) (ch bl notes : JVal) :
    jvalField (icdRecord entry ch bl notes) ("chapter") = some ch ∧
    jvalField (icdRecord entry ch bl notes) ("block") = some bl := by
  constructor
  · simp [icdRecord, jvalField, dictGet, List.find?]
  · simp [icdRecord, jvalField, dictGet, List.find?]

theorem icd_chapter_block_aux (n : Nat) :
    (∀ (e ch bl : JVal), sizeOf e ≤ n →
      ∀ p ∈ (processDiagEntry e ch bl).1.1,
        jvalField p.2 ("chapter") = some ch ∧ jvalField p.2 ("block") = some bl) ∧
    (∀ (subs : List JVal) (ch bl : JVal), sizeOf subs ≤ n →
      ∀ p ∈ (processDiagList subs ch bl).1.1,
        jvalField p.2 ("chapter") = some ch ∧ jvalField p.2 ("block") = some bl) := by
  induction n using Nat.strong_induction_on with
  | _ n ih =>
    constructor
    · intro e ch bl hsize p hp
      cases e with
      | jobj kvs =>
        have hchild : sizeOf (diagSubs kvs) < n :=
          lt_of_lt_of_le (sizeOf_diagSubs_lt kvs) hsize
        have ihlist := (ih (sizeOf (diagSubs kvs)) hchild).2 (diagSubs kvs) ch bl le_rfl
        rw [processDiagEntry] at hp
        by_cases hguard : (pyTruthy (pyGetV kvs ("name")) && pyTruthy (pyGetV kvs ("desc"))) = true
        . cases hnotes : notesStrOf kvs with
          | none => simp [hguard, hnotes] at hp
          | some notes =>
            by_cases hraise : diagRaises kvs = true
            . simp only [hguard, if_true, hnotes, hraise] at hp
              simp only [List.mem_singleton] at hp
              subst hp
              exact jvalField_icdRecord kvs ch bl notes
            . simp only [Bool.not_eq_true] at hraise
              simp only [hguard, if_true, hnotes, hraise, Bool.false_eq_true, if_false] at hp
              simp only [List.cons_append, List.nil_append, List.mem_cons] at hp
              rcases hp with hp | hp
              . subst hp
                exact jvalField_icdRecord kvs ch bl notes
              . exact ihlist p hp
        . simp only [Bool.not_eq_true] at hguard
          by_cases hraise : diagRaises kvs = true
          . simp only [hguard, Bool.false_eq_true, if_false, hraise, if_true] at hp
            simp at hp
          . simp only [Bool.not_eq_true] at hraise
            simp only [hguard, Bool.false_eq_true, if_false, hraise] at hp
            simp only [List.nil_append] at hp
            exact ihlist p hp
      | jnull => simp [processDiagEntry] at hp
      | jbool b => simp [processDiagEntry] at hp
      | jnum i => simp [processDiagEntry] at hp
      | jnan => simp [processDiagEntry] at hp
      | jstr s => simp [processDiagEntry] at hp
      | jarr xs => simp [processDiagEntry] at hp
    . intro subs ch bl hsize p hp
      cases subs with
      | nil => simp [processDiagList] at hp
      | cons x rest =>
        have hx : sizeOf x < n :=
          lt_of_lt_of_le (by simp only [List.cons.sizeOf_spec]; omega) hsize
        have hrest : sizeOf rest < n :=
          lt_of_lt_of_le (by simp only [List.cons.sizeOf_spec]; omega) hsize
        have ihx := (ih (sizeOf x) hx).1 x ch bl le_rfl
        have ihrest := (ih (sizeOf rest) hrest).2 rest ch bl le_rfl
        rw [processDiagList] at hp
        by_cases hok : (processDiagEntry x ch bl).2 = true
        . simp only [hok, if_true, List.mem_append] at hp
          rcases hp with hp | hp
          . exact ihx p hp
          . exact ihrest p hp
        . simp only [Bool.not_eq_true] at hok
          simp only [hok, Bool.false_eq_true, if_false] at hp
          exact ihx p hp

theorem icd_descendants_aux (n : Nat) :
    (∀ (e ch bl : JVal), sizeOf e ≤ n →
      (processDiagEntry e ch bl).2 = true →
      (recognizedEntry e = true →
         icdFileName e ∈ (processDiagEntry e ch bl).1.1.map Prod.fst) ∧
      (∀ d ∈ descendantsOf e, recognizedEntry d = true →
         icdFileName d ∈ (processDiagEntry e ch bl).1.1.map Prod.fst)) ∧
    (∀ (subs : List JVal) (ch bl : JVal), sizeOf subs ≤ n →
      (processDiagList subs ch bl).2 = true →
      ∀ d ∈ descendantsList subs, recognizedEntry d = true →
        icdFileName d ∈ (processDiagList subs ch bl).1.1.map Prod.fst) := by
  induction n using Nat.strong_induction_on with
  | _ n ih =>
    constructor
    . intro e ch bl hsize hok
      cases e with
      | jobj kvs =>
        have hchild : sizeOf (diagSubs kvs) < n :=
          lt_of_lt_of_le (sizeOf_diagSubs_lt kvs) hsize
        have ihlist := (ih _ hchild).2 (diagSubs kvs) ch bl le_rfl
        rw [processDiagEntry] at hok ⊢
        by_cases hguard : (pyTruthy (pyGetV kvs ("name")) && pyTruthy (pyGetV kvs ("desc"))) = true
        . cases hnotes : notesStrOf kvs with
          | none => simp [hguard, hnotes] at hok
          | some notes =>
            by_cases hraise : diagRaises kvs = true
            . simp [hguard, hnotes, hraise] at hok
            . simp only [Bool.not_eq_true] at hraise
              simp only [hguard, if_true, hnotes, hraise, Bool.false_eq_true, if_false] at hok ⊢
              constructor
              . intro _
                simp [icdFileName]
              . intro d hd hrecd
                rw [descendantsOf] at hd
                have hmem := ihlist hok d hd hrecd
                simp only [List.cons_append, List.nil_append, List.map_cons, List.mem_cons]
                exact Or.inr hmem
        . simp only [Bool.not_eq_true] at hguard
          by_cases hraise : diagRaises kvs = true
          . simp [hguard, hraise] at hok
          . simp only [Bool.not_eq_true] at hraise
            simp only [hguard, Bool.false_eq_true, if_false, hraise] at hok ⊢
            constructor
            . intro hrec
              simp [recognizedEntry, hguard] at hrec
            . intro d hd hrecd
              rw [descendantsOf] at hd
              simp only [List.nil_append]
              exact ihlist hok d hd hrecd
      | jnull =>
        refine ⟨fun hrec => by simp [recognizedEntry] at hrec, fun d hd _ => ?_⟩
        simp [descendantsOf] at hd
      | jbool b =>
        refine ⟨fun hrec => by simp [recognizedEntry] at hrec, fun d hd _ => ?_⟩
        simp [descendantsOf] at hd
      | jnum i =>
        refine ⟨fun hrec => by simp [recognizedEntry] at hrec, fun d hd _ => ?_⟩
        simp [descendantsOf] at hd
      | jnan =>
        refine ⟨fun hrec => by simp [recognizedEntry] at hrec, fun d hd _ => ?_⟩
        simp [descendantsOf] at hd
      | jstr s =>
        refine ⟨fun hrec => by simp [recognizedEntry] at hrec, fun d hd _ => ?_⟩
        simp [descendantsOf] at hd
      | jarr xs =>
        refine ⟨fun hrec => by simp [recognizedEntry] at hrec, fun d hd _ => ?_⟩
        simp [descendantsOf] at hd
    . intro subs ch bl hsize hok d hd hrecd
      cases subs with
      | nil =>
        rw [descendantsList] at hd
        cases hd
      | cons x rest =>
        have hx : sizeOf x < n :=
          lt_of_lt_of_le (by simp only [List.cons.sizeOf_spec]; omega) hsize
        have hrest : sizeOf rest < n :=
          lt_of_lt_of_le (by simp only [List.cons.sizeOf_spec]; omega) hsize
        rw [processDiagList] at hok ⊢
        rw [descendantsList] at hd
        by_cases hokx : (processDiagEntry x ch bl).2 = true
        . simp only [hokx, if_true] at hok ⊢
          simp only [List.mem_cons, List.mem_append] at hd
          rcases hd with hd | hd | hd
          . subst hd
            have hown := ((ih _ hx).1 d ch bl le_rfl hokx).1 hrecd
            simp only [List.map_append, List.mem_append]
            exact Or.inl hown
          . have hmem := ((ih _ hx).1 x ch bl le_rfl hokx).2 d hd hrecd
            simp only [List.map_append, List.mem_append]
            exact Or.inl hmem
          . have hmem := (ih _ hrest).2 rest ch bl le_rfl hok d hd hrecd
            simp only [List.map_append, List.mem_append]
            exact Or.inr hmem
        . simp only [Bool.not_eq_true] at hokx
          simp [hokx] at hok

/-- C4: every record emitted by `process_diag_entry` under chapter context
`ch` and block context `bl` carries output fields `chapter == ch` and
`block == bl`; and a recognized entry (truthy `name` and `desc`), in a run
that does not raise, gets its own output file and one output file for
every recognized descendant reachable through `diag` child lists —
children are visited whether or not the current entry qualified. -/
theorem c4_nested_tree_propagation (e ch bl : JVal) :
    (∀ p ∈ (processDiagEntry e ch bl).1.1,
       jvalField p.2 ("chapter") = some ch ∧ jvalField p.2 ("block") = some bl) ∧
    (recognizedEntry e = true → (processDiagEntry e ch bl).2 = true →
       icdFileName e ∈ (processDiagEntry e ch bl).1.1.map Prod.fst ∧
       ∀ d ∈ descendantsOf e, recognizedEntry d = true →
         icdFileName d ∈ (processDiagEntry e ch bl).1.1.map Prod.fst) := by
  constructor
  . exact fun p hp => (icd_chapter_block_aux (sizeOf e)).1 e ch bl le_rfl p hp
  . intro hrec hok
    obtain ⟨h1, h2⟩ := (icd_descendants_aux (sizeOf e)).1 e ch bl le_rfl hok
    exact ⟨h1 hrec, h2⟩

/-- The concrete child diagnosis of the C4 witness scenario. -/
def c4Child : JVal :=
  JVal.jobj [(("name"), JVal.jstr ("A00.0")), (("desc"), JVal.jstr ("Classical cholera"))]

/-- The concrete parent diagnosis of the C4 witness scenario: qualifying
fields plus a nested child. -/
def c4Kvs : List (String × JVal) :=
  [(("name"), JVal.jstr ("A00")), (("desc"), JVal.jstr ("Cholera")),
   (("diag"), JVal.jarr [c4Child])]

theorem c4files :
    (processDiagEntry (JVal.jobj c4Kvs) (JVal.jstr ("Ch1")) (JVal.jstr ("A00-A09"))).1.1 =
      [(("A00.json"), icdRecord c4Kvs (JVal.jstr ("Ch1")) (JVal.jstr ("A00-A09")) JVal.jnull),
       (("A00.0.json"),
        icdRecord [(("name"), JVal.jstr ("A00.0")), (("desc"), JVal.jstr ("Classical cholera"))]
          (JVal.jstr ("Ch1")) (JVal.jstr ("A00-A09")) JVal.jnull)] ∧
    (processDiagEntry (JVal.jobj c4Kvs) (JVal.jstr ("Ch1")) (JVal.jstr ("A00-A09"))).2 = true := by
  constructor
  . rw [c4Kvs, c4Child, processDiagEntry]
    simp [processDiagList, processDiagEntry, dictHas, pyGetV, dictGet, List.find?, pyTruthy,
          diagSubs, diagRaises, dictIdx, notesStrOf, notesValuesOf, extract_notes, pyStr,
          c4Kvs, c4Child, icdRecord, inclusionTermsOf, excludes1Of]
  . rw [c4Kvs, c4Child, processDiagEntry]
    simp [processDiagList, processDiagEntry, dictHas, pyGetV, dictGet, List.find?, pyTruthy,
          diagSubs, diagRaises, dictIdx, notesStrOf, notesValuesOf, extract_notes, pyStr]

/-- C4 witness: the concrete parent `A00` (with child `A00.0`) propagates
its chapter and block into the emitted record, writes `A00.json` for
itself, and writes `A00.0.json` for its recognized descendant in the same
run. -/
theorem c4_nested_tree_propagation_witness :
    jvalField (icdRecord c4Kvs (JVal.jstr ("Ch1")) (JVal.jstr ("A00-A09")) JVal.jnull) ("chapter") =
      some (JVal.jstr ("Ch1")) ∧
    icdFileName (JVal.jobj c4Kvs) ∈
      ((processDiagEntry (JVal.jobj c4Kvs) (JVal.jstr ("Ch1")) (JVal.jstr ("A00-A09"))).1.1.map Prod.fst) ∧
    icdFileName c4Child ∈
      ((processDiagEntry (JVal.jobj c4Kvs) (JVal.jstr ("Ch1")) (JVal.jstr ("A00-A09"))).1.1.map Prod.fst) := by
  have h := c4_nested_tree_propagation (JVal.jobj c4Kvs) (JVal.jstr ("Ch1")) (JVal.jstr ("A00-A09"))
  have hok := c4files.2
  have hrec : recognizedEntry (JVal.jobj c4Kvs) = true := by decide
  obtain ⟨hown, hdesc⟩ := h.2 hrec hok
  refine ⟨?_, hown, ?_⟩
  . have hmem : (("A00.json"),
        icdRecord c4Kvs (JVal.jstr ("Ch1")) (JVal.jstr ("A00-A09")) JVal.jnull) ∈
        (processDiagEntry (JVal.jobj c4Kvs) (JVal.jstr ("Ch1")) (JVal.jstr ("A00-A09"))).1.1 := by
      rw [c4files.1]
      exact List.mem_cons_self _ _
    exact (h.1 _ hmem).1
  . refine hdesc c4Child ?_ (by decide)
    rw [descendantsOf]
    have hsubs : diagSubs c4Kvs = [c4Child] := by rfl
    rw [hsubs, descendantsList]
    exact List.mem_cons_self _ _
